import Mathlib

/-!
Verification of the cursor-registry adjustment algorithms of
`xpcom/ds/nsTObserverArray.cpp` and the ASCII classification masks of
`xpcom/string/nsASCIIMask.cpp` (C++ backend, the one compiled without
`MOZ_RUST_OBSERVER_ARRAY` / `MOZ_RUST_ASCIIMASK`).

The registry is an intrusive singly-linked list of live iterators rooted at
`mIterators`; each iterator holds an `mPosition` of C++ type `size_t`.  We
embed the linked list as a Lean `List` (list order = link order from the head
pointer) and `size_t` arithmetic as `Nat` with explicit reduction modulo
`2 ^ 64`, since `mPosition += aAdjustment` is unsigned wrapping arithmetic.
The `MOZ_ASSERT` on the adjustment magnitude is embedded as an `Option`:
`none` means the assertion fired.
-/

namespace ObserverArray

/-- Number of values of the C++ type `size_t` (64-bit target). -/
def wordSize : Nat := 2 ^ 64

/-- One live iterator of the registry.  `mPosition` is the iterator's current
position (`size_t` in the source).  `tag` stands for all the other per-cursor
state that `nsTObserverArray.cpp` never touches (the identity of the cursor
object, its back reference to the array); the algorithms under study read and
write only `mPosition` and follow `mNext`, which the list structure encodes. -/
structure Iterator_base where
  mPosition : Nat
  tag : Nat
deriving Repr, DecidableEq

/-- The state of `nsTObserverArray_base`: the head of the intrusive iterator
list (`mIterators`, embedded as the list of live iterators in link order) and
`mStore`, which stands for all remaining state of the sequence store that the
two algorithms never touch. -/
structure nsTObserverArray_base where
  mStore : Nat
  mIterators : List Iterator_base
deriving Repr, DecidableEq

/-- The update `iter->mPosition += aAdjustment` guarded by
`if (iter->mPosition > aModPos)`, with `size_t` wrapping semantics. -/
def adjustPos (aModPos : Nat) (aAdjustment : Int) (p : Nat) : Nat :=
  if p > aModPos then (((p : Int) + aAdjustment) % (wordSize : Int)).toNat
  else p

/-- The `while (iter)` walk of `AdjustIterators`: visit each linked iterator
in order, apply `adjustPos` to its position, move to `mNext`. -/
def adjustLoop (aModPos : Nat) (aAdjustment : Int) :
    List Iterator_base → List Iterator_base
  | [] => []
  | it :: rest =>
      { it with mPosition := adjustPos aModPos aAdjustment it.mPosition } ::
        adjustLoop aModPos aAdjustment rest

/-- The `while (iter)` walk of `ClearIterators`: set each linked iterator's
position to `0`, move to `mNext`. -/
def clearLoop : List Iterator_base → List Iterator_base
  | [] => []
  | it :: rest => { it with mPosition := 0 } :: clearLoop rest

/-- `nsTObserverArray_base::AdjustIterators(aModPos, aAdjustment)`.
The leading `MOZ_ASSERT(aAdjustment == -1 || aAdjustment == 1)` is the
`Option` guard: `none` is the assertion firing. -/
def AdjustIterators (s : nsTObserverArray_base) (aModPos : Nat)
    (aAdjustment : Int) : Option nsTObserverArray_base :=
  if aAdjustment = -1 ∨ aAdjustment = 1 then
    some { s with mIterators := adjustLoop aModPos aAdjustment s.mIterators }
  else
    none

/-- `nsTObserverArray_base::ClearIterators()`. -/
def ClearIterators (s : nsTObserverArray_base) : nsTObserverArray_base :=
  { s with mIterators := clearLoop s.mIterators }

/-- The list of live cursor positions of a registry state, in link order. -/
def positions (s : nsTObserverArray_base) : List Nat :=
  s.mIterators.map Iterator_base.mPosition

/-- Fuel-bounded version of the `AdjustIterators` walk: one unit of fuel is
consumed per loop iteration (per linked iterator visited), and the walk
reports `none` when fuel runs out before the list ends.  Used to show the
loop is a single linear walk that terminates in exactly one visit per
live cursor. -/
def adjustLoopFuel (aModPos : Nat) (aAdjustment : Int) :
    Nat → List Iterator_base → Option (List Iterator_base)
  | _, [] => some []
  | 0, _ :: _ => none
  | fuel + 1, it :: rest =>
      (adjustLoopFuel aModPos aAdjustment fuel rest).map
        (fun r =>
          { it with mPosition := adjustPos aModPos aAdjustment it.mPosition }
            :: r)

/-- Fuel-bounded version of the `ClearIterators` walk, one unit of fuel per
loop iteration. -/
def clearLoopFuel : Nat → List Iterator_base → Option (List Iterator_base)
  | _, [] => some []
  | 0, _ :: _ => none
  | fuel + 1, it :: rest =>
      (clearLoopFuel fuel rest).map
        (fun r => { it with mPosition := 0 } :: r)

theorem adjustLoop_eq_map (mp : Nat) (adj : Int) (l : List Iterator_base) :
    adjustLoop mp adj l =
      l.map (fun it => { it with mPosition := adjustPos mp adj it.mPosition }) := by
  induction l with
  | nil => rfl
  | cons it rest ih => simp [adjustLoop, ih]

theorem clearLoop_eq_map (l : List Iterator_base) :
    clearLoop l = l.map (fun it => { it with mPosition := 0 }) := by
  induction l with
  | nil => rfl
  | cons it rest ih => simp [clearLoop, ih]

theorem adjustPos_of_le (mp : Nat) (adj : Int) (p : Nat) (h : p ≤ mp) :
    adjustPos mp adj p = p := by
  simp [adjustPos, Nat.not_lt.mpr h]

theorem adjustPos_incr (mp p : Nat) (h : mp < p) (hlt : p + 1 < wordSize) :
    adjustPos mp 1 p = p + 1 := by
  have hcast : ((p : Int) + 1) < (wordSize : Int) := by exact_mod_cast hlt
  simp only [adjustPos, if_pos h]
  rw [Int.emod_eq_of_lt (by omega) hcast]
  omega

theorem adjustPos_decr (mp p : Nat) (h : mp < p) (hlt : p < wordSize) :
    adjustPos mp (-1) p = p - 1 := by
  have hcast : ((p : Int)) < (wordSize : Int) := by exact_mod_cast hlt
  simp only [adjustPos, if_pos h]
  rw [Int.emod_eq_of_lt (by omega) (by omega)]
  omega

theorem clearLoop_positions (l : List Iterator_base) :
    (clearLoop l).map Iterator_base.mPosition = List.replicate l.length 0 := by
  induction l with
  | nil => rfl
  | cons it rest ih => simp [clearLoop, List.replicate_succ, ih]

theorem adjustLoopFuel_enough (mp : Nat) (adj : Int) (l : List Iterator_base)
    (fuel : Nat) (h : l.length ≤ fuel) :
    adjustLoopFuel mp adj fuel l = some (adjustLoop mp adj l) := by
  induction l generalizing fuel with
  | nil => cases fuel <;> rfl
  | cons it rest ih =>
    cases fuel with
    | zero => simp at h
    | succ fuel =>
      simp only [adjustLoopFuel, adjustLoop,
        ih fuel (by simpa using Nat.lt_succ_iff.mp (Nat.lt_of_lt_of_le (Nat.lt_succ_self _) h))]
      rfl

theorem adjustLoopFuel_short (mp : Nat) (adj : Int) (l : List Iterator_base)
    (fuel : Nat) (h : fuel < l.length) :
    adjustLoopFuel mp adj fuel l = none := by
  induction l generalizing fuel with
  | nil => simp at h
  | cons it rest ih =>
    cases fuel with
    | zero => rfl
    | succ fuel => simp [adjustLoopFuel, ih fuel (by simpa using h)]

theorem clearLoopFuel_enough (l : List Iterator_base) (fuel : Nat)
    (h : l.length ≤ fuel) :
    clearLoopFuel fuel l = some (clearLoop l) := by
  induction l generalizing fuel with
  | nil => cases fuel <;> rfl
  | cons it rest ih =>
    cases fuel with
    | zero => simp at h
    | succ fuel =>
      simp only [clearLoopFuel, clearLoop,
        ih fuel (by simpa using Nat.lt_succ_iff.mp (Nat.lt_of_lt_of_le (Nat.lt_succ_self _) h))]
      rfl

theorem clearLoopFuel_short (l : List Iterator_base) (fuel : Nat)
    (h : fuel < l.length) :
    clearLoopFuel fuel l = none := by
  induction l generalizing fuel with
  | nil => simp at h
  | cons it rest ih =>
    cases fuel with
    | zero => rfl
    | succ fuel => simp [clearLoopFuel, ih fuel (by simpa using h)]

/-- C2: `ClearIterators` sets the position of every live cursor to zero,
regardless of its prior value; no cursor remains at a non-zero position
afterwards (the position list becomes all zeros, one per live cursor). -/
theorem C2_clear_zeroes_all (s : nsTObserverArray_base) :
    positions (ClearIterators s) = List.replicate s.mIterators.length 0 := by
  simpa [positions, ClearIterators] using clearLoop_positions s.mIterators

/-- C3: the `MOZ_ASSERT` guard of `AdjustIterators` fires (the call fails
fast rather than proceeding) exactly when the adjustment is neither `-1`
nor `+1`; under the precondition `adjustment ∈ {-1, +1}` the assertion
branch is unreachable and the walk runs. -/
theorem C3_assert_guard (s : nsTObserverArray_base) (mp : Nat) (adj : Int) :
    AdjustIterators s mp adj = none ↔ ¬(adj = -1 ∨ adj = 1) := by
  unfold AdjustIterators
  split <;> simp_all

/-- C6: both operations are single linear walks of the registry that
terminate: with one unit of fuel per loop iteration, fuel equal to the
number of live cursors suffices to complete each walk (so every cursor is
visited exactly once and the loop halts), while any smaller fuel is not
enough on a non-empty registry. -/
theorem C6_linear_walk_terminates (s : nsTObserverArray_base) (mp : Nat)
    (adj : Int) :
    adjustLoopFuel mp adj s.mIterators.length s.mIterators =
        some (adjustLoop mp adj s.mIterators) ∧
    clearLoopFuel s.mIterators.length s.mIterators =
        some (clearLoop s.mIterators) ∧
    (s.mIterators ≠ [] →
      adjustLoopFuel mp adj (s.mIterators.length - 1) s.mIterators = none ∧
      clearLoopFuel (s.mIterators.length - 1) s.mIterators = none) := by
  refine ⟨adjustLoopFuel_enough mp adj _ _ le_rfl,
    clearLoopFuel_enough _ _ le_rfl, fun hne => ?_⟩
  have hlen : 0 < s.mIterators.length := List.length_pos.mpr hne
  exact ⟨adjustLoopFuel_short mp adj _ _ (by omega),
    clearLoopFuel_short _ _ (by omega)⟩

/-- C6 witness: on a concrete one-cursor registry, fuel `0` (one less than
the cursor count) is not enough for either walk. -/
theorem C6_linear_walk_terminates_witness :
    adjustLoopFuel 2 1 0 [⟨3, 0⟩] = none ∧ clearLoopFuel 0 [⟨3, 0⟩] = none :=
  (C6_linear_walk_terminates ⟨0, [⟨3, 0⟩]⟩ 2 1).2.2 (by decide)

theorem adjustLoop_forall₂ (mp : Nat) (adj : Int) (hadj : adj = -1 ∨ adj = 1)
    (l : List Iterator_base)
    (hpos : ∀ it ∈ l, it.mPosition + 1 < wordSize) :
    List.Forall₂
      (fun p q : Nat => (mp < p → (q : Int) = (p : Int) + adj) ∧ (p ≤ mp → q = p))
      (l.map Iterator_base.mPosition)
      ((adjustLoop mp adj l).map Iterator_base.mPosition) := by
  induction l with
  | nil => exact List.Forall₂.nil
  | cons it rest ih =>
    have hhd : it.mPosition + 1 < wordSize := hpos it (List.mem_cons_self it rest)
    simp only [adjustLoop, List.map_cons]
    refine List.Forall₂.cons ⟨fun hlt => ?_, fun hle => ?_⟩
      (ih fun x hx => hpos x (List.mem_cons_of_mem it hx))
    · rcases hadj with h | h <;> subst h
      · rw [adjustPos_decr mp it.mPosition hlt (by omega)]
        omega
      · rw [adjustPos_incr mp it.mPosition hlt hhd]
        omega
    · rw [adjustPos_of_le mp adj it.mPosition hle]

/-- C1 counterexample: the adjustment is added with the wrapping semantics
of `size_t`, so a cursor at position `2 ^ 64 - 1` that is adjusted by `+1`
does not end at its position plus one (it wraps to `0`). -/
theorem C1_counterexample :
    (AdjustIterators ⟨0, [⟨wordSize - 1, 0⟩]⟩ 0 1).map positions ≠
      some [wordSize - 1 + 1] := by decide

/-- C1 (amended): the claim holds whenever no cursor sits at the top
`size_t` value `2 ^ 64 - 1` (so the `+1` update cannot wrap): the call
succeeds, and each cursor whose position is strictly greater than
`modifiedPosition` has the adjustment added to its position as an exact
integer sum, while each cursor at or before `modifiedPosition` keeps
exactly its prior position. -/
theorem C1_adjust_rule (s : nsTObserverArray_base) (mp : Nat) (adj : Int)
    (hadj : adj = -1 ∨ adj = 1)
    (hpos : ∀ it ∈ s.mIterators, it.mPosition + 1 < wordSize) :
    ∃ t, AdjustIterators s mp adj = some t ∧
      List.Forall₂
        (fun p q : Nat =>
          (mp < p → (q : Int) = (p : Int) + adj) ∧ (p ≤ mp → q = p))
        (positions s) (positions t) := by
  refine ⟨{ s with mIterators := adjustLoop mp adj s.mIterators }, ?_, ?_⟩
  · unfold AdjustIterators
    rw [if_pos hadj]
  · simpa [positions] using adjustLoop_forall₂ mp adj hadj s.mIterators hpos

/-- C1 witness: a concrete three-cursor registry at positions 0, 2, 5, with
an insertion at position 2: only the cursor at 5 moves, to 6. -/
theorem C1_adjust_rule_witness :
    ∃ t, AdjustIterators ⟨0, [⟨0, 0⟩, ⟨2, 1⟩, ⟨5, 2⟩]⟩ 2 1 = some t ∧
      List.Forall₂
        (fun p q : Nat =>
          (2 < p → (q : Int) = (p : Int) + 1) ∧ (p ≤ 2 → q = p))
        (positions ⟨0, [⟨0, 0⟩, ⟨2, 1⟩, ⟨5, 2⟩]⟩) (positions t) :=
  C1_adjust_rule ⟨0, [⟨0, 0⟩, ⟨2, 1⟩, ⟨5, 2⟩]⟩ 2 1 (Or.inr rfl) (by decide)

theorem positions_adjust (s t : nsTObserverArray_base) (mp : Nat) (adj : Int)
    (h : AdjustIterators s mp adj = some t) :
    positions t = (positions s).map (adjustPos mp adj) := by
  unfold AdjustIterators at h
  split at h
  · cases h
    simp [positions, adjustLoop_eq_map, List.map_map, Function.comp]
  · simp at h

theorem positions_adjust_getD (s t : nsTObserverArray_base) (mp : Nat)
    (adj : Int) (h : AdjustIterators s mp adj = some t) (i : Nat)
    (hi : i < s.mIterators.length) :
    (positions t).getD i 0 = adjustPos mp adj ((positions s).getD i 0) := by
  have hlen : i < (positions s).length := by simpa [positions] using hi
  rw [positions_adjust s t mp adj h,
    List.getD_eq_getElem _ _ (by simpa using hlen),
    List.getD_eq_getElem _ _ hlen, List.getElem_map]

/-- C4: each cursor's post-call position is a function only of its own
pre-call position, `modifiedPosition` and `adjustment`: two cursors (at any
index of any registry) with equal pre-call positions end at equal post-call
positions after the same `AdjustIterators` call, regardless of what other
cursors are in either registry. -/
theorem C4_cursor_independence (mp : Nat) (adj : Int)
    (s₁ s₂ t₁ t₂ : nsTObserverArray_base) (i j : Nat)
    (h₁ : AdjustIterators s₁ mp adj = some t₁)
    (h₂ : AdjustIterators s₂ mp adj = some t₂)
    (hi : i < s₁.mIterators.length) (hj : j < s₂.mIterators.length)
    (hpre : (positions s₁).getD i 0 = (positions s₂).getD j 0) :
    (positions t₁).getD i 0 = (positions t₂).getD j 0 := by
  rw [positions_adjust_getD s₁ t₁ mp adj h₁ i hi,
    positions_adjust_getD s₂ t₂ mp adj h₂ j hj, hpre]

/-- C4 witness: two registries sharing the pre-call position 4 at different
indices; after a removal at position 3 both cursors end at 3. -/
theorem C4_cursor_independence_witness :
    (positions ⟨0, [⟨3, 0⟩]⟩).getD 0 0 =
      (positions ⟨1, [⟨6, 5⟩, ⟨3, 9⟩]⟩).getD 1 0 :=
  C4_cursor_independence 3 (-1) ⟨0, [⟨4, 0⟩]⟩ ⟨1, [⟨7, 5⟩, ⟨4, 9⟩]⟩
    ⟨0, [⟨3, 0⟩]⟩ ⟨1, [⟨6, 5⟩, ⟨3, 9⟩]⟩ 0 1 (by decide) (by decide)
    (by decide) (by decide) (by decide)

/-- C5: both operations mutate only the position field of live cursors:
the sequence store's other state, the registry's length, and every
cursor's non-position state (in link order) are unchanged. -/
theorem C5_frame (s t : nsTObserverArray_base) (mp : Nat) (adj : Int)
    (h : AdjustIterators s mp adj = some t) :
    (t.mStore = s.mStore ∧
      t.mIterators.map Iterator_base.tag =
        s.mIterators.map Iterator_base.tag ∧
      t.mIterators.length = s.mIterators.length) ∧
    ((ClearIterators s).mStore = s.mStore ∧
      (ClearIterators s).mIterators.map Iterator_base.tag =
        s.mIterators.map Iterator_base.tag ∧
      (ClearIterators s).mIterators.length = s.mIterators.length) := by
  unfold AdjustIterators at h
  split at h
  · cases h
    refine ⟨⟨rfl, ?_, ?_⟩, rfl, ?_, ?_⟩ <;>
      simp [adjustLoop_eq_map, clearLoop_eq_map, ClearIterators,
        List.map_map, Function.comp]
  · simp at h

/-- C5 witness: a concrete adjustment call on a one-cursor registry leaves
the store state, the cursor tags, and the registry length unchanged. -/
theorem C5_frame_witness :
    ((nsTObserverArray_base.mStore ⟨5, [⟨4, 7⟩]⟩ = 5 ∧
      List.map Iterator_base.tag (nsTObserverArray_base.mIterators ⟨5, [⟨4, 7⟩]⟩) = [7] ∧
      List.length (nsTObserverArray_base.mIterators ⟨5, [⟨4, 7⟩]⟩) = 1) ∧
    ((ClearIterators ⟨5, [⟨3, 7⟩]⟩).mStore = 5 ∧
      (ClearIterators ⟨5, [⟨3, 7⟩]⟩).mIterators.map Iterator_base.tag = [7] ∧
      (ClearIterators ⟨5, [⟨3, 7⟩]⟩).mIterators.length = 1)) :=
  C5_frame ⟨5, [⟨3, 7⟩]⟩ ⟨5, [⟨4, 7⟩]⟩ 2 1 (by decide)

theorem adjustPos_neg_pos (mp p : Nat) (h : p + 1 < wordSize) :
    adjustPos mp (-1) (adjustPos mp 1 p) = p := by
  by_cases hc : mp < p
  · rw [adjustPos_incr mp p hc h, adjustPos_decr mp (p + 1) (by omega) h]
    omega
  · rw [adjustPos_of_le mp 1 p (by omega), adjustPos_of_le mp (-1) p (by omega)]

theorem adjustLoop_neg_pos (mp : Nat) (l : List Iterator_base)
    (hpos : ∀ it ∈ l, it.mPosition + 1 < wordSize) :
    adjustLoop mp (-1) (adjustLoop mp 1 l) = l := by
  induction l with
  | nil => rfl
  | cons it rest ih =>
    have h1 := adjustPos_neg_pos mp it.mPosition (hpos it (List.mem_cons_self it rest))
    simp [adjustLoop, h1, ih fun x hx => hpos x (List.mem_cons_of_mem it hx)]

/-- C8 counterexample: at the top `size_t` value the `+1` update wraps to
`0`, and the subsequent `-1` call then leaves the cursor at `0` (zero is
never strictly greater than the modified position), so the composition is
not the identity there. -/
theorem C8_counterexample :
    ((AdjustIterators ⟨0, [⟨wordSize - 1, 0⟩]⟩ 0 1).bind
        (fun t => AdjustIterators t 0 (-1))).map positions ≠
      some [wordSize - 1] := by decide

/-- C8 (amended): the claim holds whenever no cursor sits at the top
`size_t` value `2 ^ 64 - 1` (so the `+1` update cannot wrap):
`AdjustIterators(p, +1)` followed by `AdjustIterators(p, -1)` restores the
whole registry state, every cursor position included. -/
theorem C8_plus_minus_identity (s : nsTObserverArray_base) (mp : Nat)
    (hpos : ∀ it ∈ s.mIterators, it.mPosition + 1 < wordSize) :
    (AdjustIterators s mp 1).bind (fun t => AdjustIterators t mp (-1)) =
      some s := by
  have h1 : AdjustIterators s mp 1 =
      some { s with mIterators := adjustLoop mp 1 s.mIterators } := by
    unfold AdjustIterators
    rw [if_pos (Or.inr rfl)]
  rw [h1, Option.some_bind]
  unfold AdjustIterators
  rw [if_pos (Or.inl rfl)]
  simp [adjustLoop_neg_pos mp s.mIterators hpos]

/-- C8 witness: a two-cursor registry at positions 2 and 5; insert at 3
then remove at 3 restores the registry exactly. -/
theorem C8_plus_minus_identity_witness :
    (AdjustIterators ⟨0, [⟨2, 0⟩, ⟨5, 1⟩]⟩ 3 1).bind
        (fun t => AdjustIterators t 3 (-1)) =
      some ⟨0, [⟨2, 0⟩, ⟨5, 1⟩]⟩ :=
  C8_plus_minus_identity ⟨0, [⟨2, 0⟩, ⟨5, 1⟩]⟩ 3 (by decide)

theorem adjustLoop_decr_forall₂ (mp : Nat) (l : List Iterator_base)
    (hvalid : ∀ it ∈ l, it.mPosition < wordSize) :
    List.Forall₂
      (fun p q : Nat =>
        ((q : Int) = if mp < p then (p : Int) - 1 else (p : Int)) ∧
          q < wordSize)
      (l.map Iterator_base.mPosition)
      ((adjustLoop mp (-1) l).map Iterator_base.mPosition) := by
  induction l with
  | nil => exact List.Forall₂.nil
  | cons it rest ih =>
    have hhd : it.mPosition < wordSize := hvalid it (List.mem_cons_self it rest)
    simp only [adjustLoop, List.map_cons]
    refine List.Forall₂.cons ⟨?_, ?_⟩
      (ih fun x hx => hvalid x (List.mem_cons_of_mem it hx))
    · by_cases hc : mp < it.mPosition
      · rw [adjustPos_decr mp it.mPosition hc hhd, if_pos hc]
        omega
      · rw [adjustPos_of_le mp (-1) it.mPosition (by omega), if_neg hc]
    · by_cases hc : mp < it.mPosition
      · rw [adjustPos_decr mp it.mPosition hc hhd]
        omega
      · rw [adjustPos_of_le mp (-1) it.mPosition (by omega)]
        exact hhd

/-- C9: a removal adjustment never underflows: for any registry of valid
`size_t` positions, `AdjustIterators(mp, -1)` succeeds and each adjusted
cursor lands exactly at its old position minus one as an exact integer
difference (so it was at least 1 and the result is non-negative), while
every position stays a valid `size_t` value — no wraparound occurs. -/
theorem C9_no_underflow (s : nsTObserverArray_base) (mp : Nat)
    (hvalid : ∀ it ∈ s.mIterators, it.mPosition < wordSize) :
    ∃ t, AdjustIterators s mp (-1) = some t ∧
      List.Forall₂
        (fun p q : Nat =>
          ((q : Int) = if mp < p then (p : Int) - 1 else (p : Int)) ∧
            q < wordSize)
        (positions s) (positions t) := by
  refine ⟨{ s with mIterators := adjustLoop mp (-1) s.mIterators }, ?_, ?_⟩
  · unfold AdjustIterators
    rw [if_pos (Or.inl rfl)]
  · simpa [positions] using adjustLoop_decr_forall₂ mp s.mIterators hvalid

/-- C9 witness: cursors at positions 0 and 3 with a removal at position 1:
the cursor at 3 moves to exactly 2, the cursor at 0 stays. -/
theorem C9_no_underflow_witness :
    ∃ t, AdjustIterators ⟨0, [⟨0, 0⟩, ⟨3, 1⟩]⟩ 1 (-1) = some t ∧
      List.Forall₂
        (fun p q : Nat =>
          ((q : Int) = if 1 < p then (p : Int) - 1 else (p : Int)) ∧
            q < wordSize)
        (positions ⟨0, [⟨0, 0⟩, ⟨3, 1⟩]⟩) (positions t) :=
  C9_no_underflow ⟨0, [⟨0, 0⟩, ⟨3, 1⟩]⟩ 1 (by decide)

theorem clearLoop_idem (l : List Iterator_base) :
    clearLoop (clearLoop l) = clearLoop l := by
  induction l with
  | nil => rfl
  | cons it rest ih => simp [clearLoop, ih]

theorem adjustLoop_clearLoop (mp : Nat) (adj : Int) (l : List Iterator_base) :
    adjustLoop mp adj (clearLoop l) = clearLoop l := by
  induction l with
  | nil => rfl
  | cons it rest ih => simp [clearLoop, adjustLoop, adjustPos, ih]

/-- C10: the all-zero cursor state is a fixed point: clearing twice equals
clearing once, after a clear every position is zero, and any valid
adjustment call on a cleared registry succeeds and leaves the cleared
state unchanged (zero is never strictly greater than the modified
position). -/
theorem C10_cleared_fixed_point (s : nsTObserverArray_base) (mp : Nat)
    (adj : Int) (hadj : adj = -1 ∨ adj = 1) :
    ClearIterators (ClearIterators s) = ClearIterators s ∧
    positions (ClearIterators s) = List.replicate s.mIterators.length 0 ∧
    AdjustIterators (ClearIterators s) mp adj = some (ClearIterators s) := by
  refine ⟨?_, ?_, ?_⟩
  · simp [ClearIterators, clearLoop_idem]
  · simpa [positions, ClearIterators] using clearLoop_positions s.mIterators
  · unfold AdjustIterators
    rw [if_pos hadj]
    simp [ClearIterators, adjustLoop_clearLoop]

/-- C10 witness: clearing a registry at positions 1 and 6, then adjusting
at position 0, leaves both cursors at zero and the state unchanged. -/
theorem C10_cleared_fixed_point_witness :
    ClearIterators (ClearIterators ⟨0, [⟨1, 0⟩, ⟨6, 1⟩]⟩) =
        ClearIterators ⟨0, [⟨1, 0⟩, ⟨6, 1⟩]⟩ ∧
    positions (ClearIterators ⟨0, [⟨1, 0⟩, ⟨6, 1⟩]⟩) = List.replicate 2 0 ∧
    AdjustIterators (ClearIterators ⟨0, [⟨1, 0⟩, ⟨6, 1⟩]⟩) 0 1 =
        some (ClearIterators ⟨0, [⟨1, 0⟩, ⟨6, 1⟩]⟩) :=
  C10_cleared_fixed_point ⟨0, [⟨1, 0⟩, ⟨6, 1⟩]⟩ 0 1 (Or.inr rfl)

end ObserverArray

namespace ASCIIMask

/-- `TestWhitespace` from `nsASCIIMask.cpp`: the byte is one of
`'\f'` (12), `'\t'` (9), `'\r'` (13), `'\n'` (10), `' '` (32). -/
def TestWhitespace (c : Nat) : Bool :=
  c = 12 || c = 9 || c = 13 || c = 10 || c = 32

/-- `TestCRLF` from `nsASCIIMask.cpp`: `'\r'` (13) or `'\n'` (10). -/
def TestCRLF (c : Nat) : Bool :=
  c = 13 || c = 10

/-- `TestCRLFTab` from `nsASCIIMask.cpp`: `'\r'` (13), `'\n'` (10) or
`'\t'` (9). -/
def TestCRLFTab (c : Nat) : Bool :=
  c = 13 || c = 10 || c = 9

/-- `TestZeroToNine` from `nsASCIIMask.cpp`: one of the bytes
`'0'` (48) through `'9'` (57), written as the source's explicit list. -/
def TestZeroToNine (c : Nat) : Bool :=
  c = 48 || c = 49 || c = 50 || c = 51 || c = 52 || c = 53 || c = 54 ||
    c = 55 || c = 56 || c = 57

/-- Modelled from the spec: `CreateASCIIMask` and `ASCIIMaskArray` are
declared in `nsASCIIMask.h`, which is not part of the examined fragment;
the spec describes the result as "a small fixed-size boolean lookup table
keyed by the ASCII range", so the table is the 128 predicate values for
byte values 0 through 127 in order. -/
def CreateASCIIMask (test : Nat → Bool) : List Bool :=
  (List.range 128).map test

/-- `sWhitespaceMask`, the precomputed table behind
`ASCIIMask::MaskWhitespace()`. -/
def sWhitespaceMask : List Bool := CreateASCIIMask TestWhitespace

/-- `sCRLFMask`, the precomputed table behind `ASCIIMask::MaskCRLF()`. -/
def sCRLFMask : List Bool := CreateASCIIMask TestCRLF

/-- `sCRLFTabMask`, the precomputed table behind
`ASCIIMask::MaskCRLFTab()`. -/
def sCRLFTabMask : List Bool := CreateASCIIMask TestCRLFTab

/-- `sZeroToNineMask`, the precomputed table behind
`ASCIIMask::Mask0to9()`. -/
def sZeroToNineMask : List Bool := CreateASCIIMask TestZeroToNine

/-- C7: for every ASCII byte `c` (0 ≤ c < 128) each precomputed table
decides membership in its named predicate set exactly: the whitespace
table holds exactly at form feed (12), tab (9), carriage return (13),
line feed (10) and space (32); the CRLF table exactly at 13 and 10; the
CRLF-tab table exactly at 13, 10 and 9; and the digit table exactly on
the decimal digits 48 through 57. -/
theorem C7_masks_exact (c : Fin 128) :
    (sWhitespaceMask.getD c.val false = true ↔
      (c.val = 12 ∨ c.val = 9 ∨ c.val = 13 ∨ c.val = 10 ∨ c.val = 32)) ∧
    (sCRLFMask.getD c.val false = true ↔ (c.val = 13 ∨ c.val = 10)) ∧
    (sCRLFTabMask.getD c.val false = true ↔
      (c.val = 13 ∨ c.val = 10 ∨ c.val = 9)) ∧
    (sZeroToNineMask.getD c.val false = true ↔
      (48 ≤ c.val ∧ c.val ≤ 57)) := by
  revert c
  set_option maxRecDepth 20000 in decide

end ASCIIMask
